import Mathlib

/-!
# Pixel-aligned raster export geometry: verification development

Shallow embedding of the grid/export arithmetic demonstrated in
`notebooks/visclaw/pcolorcells.ipynb`.  Coordinates are embedded as exact
rationals (`ℚ`); coordinate sequences are `List ℚ`.

The notebook itself contains the cell-center-to-edge conversion
(`xedge = np.arange(x[0]-0.5*dx, x[-1]+dx, dx)`, cell-7) and the KML extent
computation (`extent2`, cell-24); those are embedded directly from the source.
The library functions it calls (`plottools.pcolorcells`,
`kmltools.pcolorcells_for_kml`) are not part of the repository, so the export
geometry computation is modelled from the specification.
-/

/-- The arithmetic progression `a, a+d, …, a+(m-1)·d` of length `m`.  Used both
as the common builder for `arange` and as the uniformly spaced cell-center
sequences that the uniform-grid theorems quantify over. -/
def centers (a d : ℚ) : ℕ → List ℚ
  | 0 => []
  | m + 1 => a :: centers (a + d) d m

/-- `np.arange start stop step` for nonzero `step`, as called by cell-7 of the
notebook: the arithmetic progression `start, start+step, …` of length
`⌈(stop - start)/step⌉` (empty when that quantity is nonpositive). -/
def arange (start stop step : ℚ) : List ℚ :=
  centers start step (⌈(stop - start) / step⌉).toNat

/-- Cell-edge array derived from a cell-center array, embedded from cell-7 of
the notebook: `dx = x[1]-x[0]; xedge = np.arange(x[0]-0.5*dx, x[-1]+dx, dx)`,
with `dx` inlined. -/
def xedge_of (x : List ℚ) : List ℚ :=
  arange (x.getD 0 0 - (1/2) * (x.getD 1 0 - x.getD 0 0))
    (x.getLastD 0 + (x.getD 1 0 - x.getD 0 0)) (x.getD 1 0 - x.getD 0 0)

/-- Cell-edge array for the y axis, embedded from cell-7 of the notebook:
`dy = y[1]-y[0]; yedge = np.arange(y[0]-0.5*dy, y[-1]+dy, dy)`, with `dy`
inlined. -/
def yedge_of (y : List ℚ) : List ℚ :=
  arange (y.getD 0 0 - (1/2) * (y.getD 1 0 - y.getD 0 0))
    (y.getLastD 0 + (y.getD 1 0 - y.getD 0 0)) (y.getD 1 0 - y.getD 0 0)

/-- KML extent, embedded from cell-24 of the notebook:
`x1 = x[0] - delta[0]/2; x2 = x[-1] + delta[0]/2` (and likewise for y),
`extent2 = [x1, x2, y1, y2]`, with the spacings passed in as `dx`, `dy`. -/
def extent2_of (x y : List ℚ) (dx dy : ℚ) : List ℚ :=
  [x.getD 0 0 - dx / 2, x.getLastD 0 + dx / 2,
   y.getD 0 0 - dy / 2, y.getLastD 0 + dy / 2]

/-- Errors of the export geometry computation (spec §7). -/
inductive ExportError where
  | InvalidGrid
  | InvalidDensity
deriving DecidableEq

/-- The export geometry record (spec §3): pixel dimensions, dots-per-inch and
the rendering bounding box. -/
structure ExportGeometry where
  pixel_width : ℤ
  pixel_height : ℤ
  dpi : ℚ
  x_min : ℚ
  x_max : ℚ
  y_min : ℚ
  y_max : ℚ
deriving DecidableEq

/-- Modelled from the spec: `compute_export_geometry`, the geometry core of
`kmltools.pcolorcells_for_kml`, whose source is not in the repository (the
notebook only calls it).  Following spec §4.1 and §7: it fails with
`InvalidGrid` when fewer than two coordinates are supplied along an axis
(spacing undefined — checked first, as spec §4.1 lists it), fails with
`InvalidDensity` when `dpc` is not positive, and otherwise derives
`Δx = x[1]-x[0]`, `Δy = y[1]-y[0]`, the bounding box
`x_min = x[0]-Δx/2, x_max = x[-1]+Δx/2` (likewise y), the pixel dimensions
`m·dpc`, `n·dpc`, and `dpi = pixel_width / figure_width_in` for the caller's
chosen physical figure width (the spec leaves the figure size as a free
choice, so it is a parameter). -/
def compute_export_geometry (x y : List ℚ) (dpc : ℤ) (figure_width_in : ℚ) :
    Except ExportError ExportGeometry :=
  if x.length < 2 ∨ y.length < 2 then .error .InvalidGrid
  else if dpc ≤ 0 then .error .InvalidDensity
  else
    let dx := x.getD 1 0 - x.getD 0 0
    let dy := y.getD 1 0 - y.getD 0 0
    let pw : ℤ := (x.length : ℤ) * dpc
    let ph : ℤ := (y.length : ℤ) * dpc
    .ok { pixel_width := pw
          pixel_height := ph
          dpi := (pw : ℚ) / figure_width_in
          x_min := x.getD 0 0 - dx / 2
          x_max := x.getLastD 0 + dx / 2
          y_min := y.getD 0 0 - dy / 2
          y_max := y.getLastD 0 + dy / 2 }

/-- Modelled from the spec: the external borderless renderer (zero margins and
axes) maps data coordinates affinely onto the pixel raster; this is the pixel
column of an x coordinate under that map. -/
def px_coord (g : ExportGeometry) (c : ℚ) : ℚ :=
  (c - g.x_min) / (g.x_max - g.x_min) * (g.pixel_width : ℚ)

/-- Modelled from the spec: pixel row of a y coordinate under the borderless
rendering map. -/
def py_coord (g : ExportGeometry) (c : ℚ) : ℚ :=
  (c - g.y_min) / (g.y_max - g.y_min) * (g.pixel_height : ℚ)

/-- Modelled from the spec: the shape dispatch of `plottools.pcolorcells`,
whose source is not in the repository (the notebook only calls it).  When the
coordinate arrays have the same shape as the value array they are cell centers
and are converted to edges with the cell-7 formula; when they have one more
entry per axis they are edges and are used directly; any other shape is
rejected. -/
def pcolorcells (x y : List ℚ) (zrows zcols : ℕ) : Option (List ℚ × List ℚ) :=
  if x.length = zcols ∧ y.length = zrows then
    some (xedge_of x, yedge_of y)
  else if x.length = zcols + 1 ∧ y.length = zrows + 1 then
    some (x, y)
  else
    none

/-! ## Helper lemmas about `centers` -/

theorem centers_length (a d : ℚ) (m : ℕ) : (centers a d m).length = m := by
  induction m generalizing a with
  | zero => simp [centers]
  | succ k ih => simp [centers, ih]

theorem centers_getD_zero (a d : ℚ) (m : ℕ) (hm : 0 < m) :
    (centers a d m).getD 0 0 = a := by
  obtain ⟨k, rfl⟩ : ∃ k, m = k + 1 := ⟨m - 1, by omega⟩
  simp [centers]

theorem centers_getD_one (a d : ℚ) (m : ℕ) (hm : 2 ≤ m) :
    (centers a d m).getD 1 0 = a + d := by
  obtain ⟨k, rfl⟩ : ∃ k, m = k + 2 := ⟨m - 2, by omega⟩
  simp [centers]

theorem centers_getLastD (a d q : ℚ) (m : ℕ) :
    (centers a d (m + 1)).getLastD q = a + m * d := by
  induction m generalizing a q with
  | zero => simp [centers]
  | succ k ih =>
    have h : centers a d (k + 2) = a :: centers (a + d) d (k + 1) := rfl
    rw [h, List.getLastD_cons, ih]
    push_cast
    ring

theorem centers_getLastD_of_pos (a d q : ℚ) (m : ℕ) (hm : 1 ≤ m) :
    (centers a d m).getLastD q = a + ((m : ℚ) - 1) * d := by
  obtain ⟨k, rfl⟩ : ∃ k, m = k + 1 := ⟨m - 1, by omega⟩
  rw [centers_getLastD]
  push_cast
  ring

theorem centers_chain' (d : ℚ) (hd : 0 < d) :
    ∀ (m : ℕ) (a : ℚ), (centers a d m).Chain' (· < ·) := by
  intro m
  induction m with
  | zero => intro a; simp [centers]
  | succ k ih =>
    intro a
    cases k with
    | zero => simp [centers]
    | succ j =>
      have h1 : centers a d (j + 2) = a :: centers (a + d) d (j + 1) := rfl
      have h2 : centers (a + d) d (j + 1) = (a + d) :: centers (a + d + d) d j := rfl
      rw [h1, h2]
      refine List.chain'_cons.mpr ⟨by linarith, ?_⟩
      have h3 := ih (a + d)
      rwa [h2] at h3

/-! ## Helper lemmas about strictly increasing lists -/

theorem chain'_getD_zero_lt_getD_one (l : List ℚ) (h : l.Chain' (· < ·))
    (hl : 2 ≤ l.length) : l.getD 0 0 < l.getD 1 0 := by
  cases l with
  | nil => simp at hl
  | cons a t =>
    cases t with
    | nil => simp at hl
    | cons b u => simpa using (List.chain'_cons.mp h).1

theorem chain'_lt_getLastD :
    ∀ (l : List ℚ) (a : ℚ), (a :: l).Chain' (· < ·) → l ≠ [] → a < l.getLastD a := by
  intro l
  induction l with
  | nil => intro a _ hne; exact absurd rfl hne
  | cons b t ih =>
    intro a h _
    rw [List.getLastD_cons]
    rcases List.chain'_cons.mp h with ⟨hab, ht⟩
    rcases eq_or_ne t [] with rfl | htne
    · simpa using hab
    · exact hab.trans (ih b ht htne)

theorem chain'_getD_zero_lt_getLastD (l : List ℚ) (h : l.Chain' (· < ·))
    (hl : 2 ≤ l.length) : l.getD 0 0 < l.getLastD 0 := by
  cases l with
  | nil => simp at hl
  | cons a t =>
    cases t with
    | nil => simp at hl
    | cons b u =>
      have h1 := chain'_lt_getLastD (b :: u) a h (by simp)
      simpa [List.getLastD_cons] using h1

/-! ## Helper lemmas about `compute_export_geometry` -/

theorem compute_export_geometry_ok (x y : List ℚ) (dpc : ℤ) (fw : ℚ)
    (hx : 2 ≤ x.length) (hy : 2 ≤ y.length) (hd : 0 < dpc) :
    compute_export_geometry x y dpc fw =
      .ok { pixel_width := (x.length : ℤ) * dpc
            pixel_height := (y.length : ℤ) * dpc
            dpi := (((x.length : ℤ) * dpc : ℤ) : ℚ) / fw
            x_min := x.getD 0 0 - (x.getD 1 0 - x.getD 0 0) / 2
            x_max := x.getLastD 0 + (x.getD 1 0 - x.getD 0 0) / 2
            y_min := y.getD 0 0 - (y.getD 1 0 - y.getD 0 0) / 2
            y_max := y.getLastD 0 + (y.getD 1 0 - y.getD 0 0) / 2 } := by
  unfold compute_export_geometry
  rw [if_neg (by omega), if_neg (by omega)]

theorem ceil_nat_add_half (m : ℕ) : (⌈(m : ℚ) + 1 / 2⌉ : ℤ) = (m : ℤ) + 1 := by
  have h : ((m : ℚ) + 1 / 2) = 1 / 2 + ((m : ℤ) : ℚ) := by push_cast; ring
  have hc : (⌈(1 : ℚ) / 2⌉ : ℤ) = 1 := by
    rw [Int.ceil_eq_iff]
    norm_num
  rw [h, Int.ceil_add_int, hc, add_comm]

theorem xedge_of_centers (a d : ℚ) (m : ℕ) (hd : 0 < d) (hm : 2 ≤ m) :
    xedge_of (centers a d m) = centers (a - (1/2) * d) d (m + 1) := by
  have h0 : (centers a d m).getD 0 0 = a := centers_getD_zero _ _ _ (by omega)
  have h1 : (centers a d m).getD 1 0 = a + d := centers_getD_one _ _ _ hm
  have hl : (centers a d m).getLastD 0 = a + ((m : ℚ) - 1) * d :=
    centers_getLastD_of_pos _ _ _ _ (by omega)
  unfold xedge_of arange
  rw [h0, h1, hl]
  have hdx : a + d - a = d := by ring
  rw [hdx]
  have harg : (a + ((m : ℚ) - 1) * d + d - (a - (1/2) * d)) / d = (m : ℚ) + 1 / 2 := by
    field_simp
    ring
  rw [harg, ceil_nat_add_half]
  have ht : ((m : ℤ) + 1).toNat = m + 1 := by omega
  rw [ht]

theorem yedge_of_eq_xedge_of (y : List ℚ) : yedge_of y = xedge_of y := rfl

/-! ## Claim theorems -/

/-- C1: for every strictly increasing x sequence of length m ≥ 2, strictly
increasing y sequence of length n ≥ 2 and positive integer dpc,
`compute_export_geometry` succeeds and returns `pixel_width = m · dpc` and
`pixel_height = n · dpc` as exact integer equalities. -/
theorem pixel_dims_exact (x y : List ℚ) (dpc : ℤ) (fw : ℚ)
    (_hxi : x.Chain' (· < ·)) (_hyi : y.Chain' (· < ·))
    (hx : 2 ≤ x.length) (hy : 2 ≤ y.length) (hd : 0 < dpc) :
    ∃ g, compute_export_geometry x y dpc fw = .ok g ∧
      g.pixel_width = (x.length : ℤ) * dpc ∧
      g.pixel_height = (y.length : ℤ) * dpc :=
  ⟨_, compute_export_geometry_ok x y dpc fw hx hy hd, rfl, rfl⟩

/-- Witness for C1 at the boundary case m = 2, n = 2, dpc = 1: pixel
dimensions 2 × 2. -/
theorem pixel_dims_exact_witness :
    ∃ g, compute_export_geometry [(0:ℚ), 1] [(0:ℚ), 1] 1 1 = .ok g ∧
      g.pixel_width = 2 ∧ g.pixel_height = 2 := by
  obtain ⟨g, hg, hw, hh⟩ := pixel_dims_exact [(0:ℚ), 1] [(0:ℚ), 1] 1 1
    (by norm_num [List.chain'_cons]) (by norm_num [List.chain'_cons])
    (by decide) (by decide) (by decide)
  exact ⟨g, hg, by simpa using hw, by simpa using hh⟩

/-- C2: for every strictly increasing x sequence of length ≥ 2 (and likewise
y), the bounding box satisfies `x_min = x[0] − Δx/2`, `x_max = x[-1] + Δx/2`
exactly with `Δx = x[1] − x[0]`, hence `x_min < x[0] < x[-1] < x_max`, and
analogously for y. -/
theorem bbox_exact (x y : List ℚ) (dpc : ℤ) (fw : ℚ)
    (hxi : x.Chain' (· < ·)) (hyi : y.Chain' (· < ·))
    (hx : 2 ≤ x.length) (hy : 2 ≤ y.length) (hd : 0 < dpc) :
    ∃ g, compute_export_geometry x y dpc fw = .ok g ∧
      g.x_min = x.getD 0 0 - (x.getD 1 0 - x.getD 0 0) / 2 ∧
      g.x_max = x.getLastD 0 + (x.getD 1 0 - x.getD 0 0) / 2 ∧
      g.y_min = y.getD 0 0 - (y.getD 1 0 - y.getD 0 0) / 2 ∧
      g.y_max = y.getLastD 0 + (y.getD 1 0 - y.getD 0 0) / 2 ∧
      g.x_min < x.getD 0 0 ∧ x.getD 0 0 < x.getLastD 0 ∧ x.getLastD 0 < g.x_max ∧
      g.y_min < y.getD 0 0 ∧ y.getD 0 0 < y.getLastD 0 ∧ y.getLastD 0 < g.y_max := by
  have hdx : 0 < x.getD 1 0 - x.getD 0 0 :=
    sub_pos.mpr (chain'_getD_zero_lt_getD_one x hxi hx)
  have hdy : 0 < y.getD 1 0 - y.getD 0 0 :=
    sub_pos.mpr (chain'_getD_zero_lt_getD_one y hyi hy)
  refine ⟨_, compute_export_geometry_ok x y dpc fw hx hy hd,
    rfl, rfl, rfl, rfl, ?_, ?_, ?_, ?_, ?_, ?_⟩
  · simp only []
    linarith
  · exact chain'_getD_zero_lt_getLastD x hxi hx
  · simp only []
    linarith
  · simp only []
    linarith
  · exact chain'_getD_zero_lt_getLastD y hyi hy
  · simp only []
    linarith

/-- Witness for C2 at the spec's example x = [0.5, 1.5, 2.5, 3.5] (with
y = [0.5, 1.5], dpc = 10): Δx = 1, x_min = 0, x_max = 4. -/
theorem bbox_exact_witness :
    ∃ g, compute_export_geometry [(1:ℚ)/2, 3/2, 5/2, 7/2] [(1:ℚ)/2, 3/2] 10 1 = .ok g ∧
      g.x_min = 0 ∧ g.x_max = 4 := by
  obtain ⟨g, hg, hmin, hmax, -⟩ := bbox_exact [(1:ℚ)/2, 3/2, 5/2, 7/2] [(1:ℚ)/2, 3/2] 10 1
    (by norm_num [List.chain'_cons]) (by norm_num [List.chain'_cons])
    (by decide) (by decide) (by decide)
  refine ⟨g, hg, ?_, ?_⟩
  · rw [hmin]; norm_num
  · rw [hmax]; norm_num

/-- C4: `compute_export_geometry` fails with `InvalidGrid` exactly when fewer
than two coordinates are supplied along an axis (m < 2 or n < 2); for
m ≥ 2 and n ≥ 2 no `InvalidGrid` error is raised. -/
theorem invalid_grid_iff (x y : List ℚ) (dpc : ℤ) (fw : ℚ) :
    compute_export_geometry x y dpc fw = .error .InvalidGrid ↔
      (x.length < 2 ∨ y.length < 2) := by
  unfold compute_export_geometry
  split_ifs with h1 h2 <;> simp_all

/-- C5: `compute_export_geometry` fails with `InvalidDensity` exactly when
dpc ≤ 0 (whenever the grid itself is valid, grid validation having
precedence), and for positive dpc no `InvalidDensity` error is ever raised. -/
theorem invalid_density_iff (x y : List ℚ) (dpc : ℤ) (fw : ℚ) :
    (2 ≤ x.length → 2 ≤ y.length →
      (compute_export_geometry x y dpc fw = .error .InvalidDensity ↔ dpc ≤ 0)) ∧
    (0 < dpc → compute_export_geometry x y dpc fw ≠ .error .InvalidDensity) := by
  unfold compute_export_geometry
  constructor
  · intro hx hy
    rw [if_neg (by omega)]
    split_ifs with h <;> simp_all
  · intro hdpc
    split_ifs with h1 h2
    · simp_all
    · simp_all
      omega
    · simp_all

/-- Witness for C5: with a valid 2 × 2 grid, dpc = 0 raises `InvalidDensity`. -/
theorem invalid_density_iff_witness :
    compute_export_geometry [(0:ℚ), 1] [(0:ℚ), 1] 0 1 = .error .InvalidDensity :=
  ((invalid_density_iff [(0:ℚ), 1] [(0:ℚ), 1] 0 1).1 (by decide) (by decide)).mpr
    (by decide)

/-- C6: the export geometry depends only on the first pair and the last
coordinate along each axis (spacing is derived from the first pair only and
uniformity is not validated): two inputs of equal lengths agreeing on
x[0], x[1], x[-1] and y[0], y[1], y[-1] yield identical geometry. -/
theorem geometry_depends_only_on_endpoints (x x' y y' : List ℚ) (dpc : ℤ) (fw : ℚ)
    (hlx : x.length = x'.length) (hly : y.length = y'.length)
    (hx0 : x.getD 0 0 = x'.getD 0 0) (hx1 : x.getD 1 0 = x'.getD 1 0)
    (hxl : x.getLastD 0 = x'.getLastD 0)
    (hy0 : y.getD 0 0 = y'.getD 0 0) (hy1 : y.getD 1 0 = y'.getD 1 0)
    (hyl : y.getLastD 0 = y'.getLastD 0) :
    compute_export_geometry x y dpc fw = compute_export_geometry x' y' dpc fw := by
  unfold compute_export_geometry
  rw [hlx, hly, hx0, hx1, hxl, hy0, hy1, hyl]

/-- Witness for C6: two grids differing only in an interior x coordinate
(5 versus 7) produce identical export geometry. -/
theorem geometry_depends_only_on_endpoints_witness :
    compute_export_geometry [(0:ℚ), 1, 5, 9] [(0:ℚ), 1] 1 1 =
      compute_export_geometry [(0:ℚ), 1, 7, 9] [(0:ℚ), 1] 1 1 :=
  geometry_depends_only_on_endpoints [(0:ℚ), 1, 5, 9] [(0:ℚ), 1, 7, 9]
    [(0:ℚ), 1] [(0:ℚ), 1] 1 1 (by decide) (by decide) (by decide) (by decide)
    (by decide) (by decide) (by decide) (by decide)

/-- C7: `compute_export_geometry` is a pure, deterministic computation: any
two results obtained from identical arguments are identical. -/
theorem export_geometry_deterministic (x y : List ℚ) (dpc : ℤ) (fw : ℚ)
    (r₁ r₂ : Except ExportError ExportGeometry)
    (h₁ : r₁ = compute_export_geometry x y dpc fw)
    (h₂ : r₂ = compute_export_geometry x y dpc fw) : r₁ = r₂ :=
  h₁.trans h₂.symm

/-- Witness for C7: two calls at a concrete input agree. -/
theorem export_geometry_deterministic_witness :
    compute_export_geometry [(0:ℚ), 1] [(0:ℚ), 1] 1 1 =
      compute_export_geometry [(0:ℚ), 1] [(0:ℚ), 1] 1 1 :=
  export_geometry_deterministic [(0:ℚ), 1] [(0:ℚ), 1] 1 1 _ _ rfl rfl

/-- C3: for uniformly spaced strictly increasing grids, rendering at the
returned geometry with zero margins gives whole-pixel cell boundaries: the
pixel dimensions are m·dpc and n·dpc, and under the affine borderless
rendering map every cell boundary `x[0] − Δx/2 + i·Δx` lands exactly on pixel
coordinate `i·dpc` (so each cell spans exactly dpc × dpc pixels). -/
theorem cell_pixel_alignment (a b d e fw : ℚ) (m n : ℕ) (dpc : ℤ)
    (hd : 0 < d) (he : 0 < e) (hm : 2 ≤ m) (hn : 2 ≤ n) (hdpc : 0 < dpc) :
    ∃ g, compute_export_geometry (centers a d m) (centers b e n) dpc fw = .ok g ∧
      g.pixel_width = (m : ℤ) * dpc ∧ g.pixel_height = (n : ℤ) * dpc ∧
      (∀ i : ℕ, i ≤ m → px_coord g (a - d/2 + (i : ℚ) * d) = (i : ℚ) * (dpc : ℚ)) ∧
      (∀ j : ℕ, j ≤ n → py_coord g (b - e/2 + (j : ℚ) * e) = (j : ℚ) * (dpc : ℚ)) := by
  have hlx : (centers a d m).length = m := centers_length a d m
  have hly : (centers b e n).length = n := centers_length b e n
  have hx0 : (centers a d m).getD 0 0 = a := centers_getD_zero _ _ _ (by omega)
  have hx1 : (centers a d m).getD 1 0 = a + d := centers_getD_one _ _ _ hm
  have hxl : (centers a d m).getLastD 0 = a + ((m : ℚ) - 1) * d :=
    centers_getLastD_of_pos _ _ _ _ (by omega)
  have hy0 : (centers b e n).getD 0 0 = b := centers_getD_zero _ _ _ (by omega)
  have hy1 : (centers b e n).getD 1 0 = b + e := centers_getD_one _ _ _ hn
  have hyl : (centers b e n).getLastD 0 = b + ((n : ℚ) - 1) * e :=
    centers_getLastD_of_pos _ _ _ _ (by omega)
  have hm0 : ((m : ℚ)) ≠ 0 := by
    have : (0 : ℚ) < (m : ℚ) := by exact_mod_cast (by omega : 0 < m)
    exact this.ne'
  have hn0 : ((n : ℚ)) ≠ 0 := by
    have : (0 : ℚ) < (n : ℚ) := by exact_mod_cast (by omega : 0 < n)
    exact this.ne'
  have hok := compute_export_geometry_ok (centers a d m) (centers b e n) dpc fw
    (by rw [hlx]; exact hm) (by rw [hly]; exact hn) hdpc
  refine ⟨{ pixel_width := (m : ℤ) * dpc
            pixel_height := (n : ℤ) * dpc
            dpi := (((m : ℤ) * dpc : ℤ) : ℚ) / fw
            x_min := a - d/2
            x_max := a + ((m : ℚ) - 1) * d + d/2
            y_min := b - e/2
            y_max := b + ((n : ℚ) - 1) * e + e/2 }, ?_, rfl, rfl, ?_, ?_⟩
  · rw [hok, hlx, hly, hx0, hx1, hxl, hy0, hy1, hyl,
        show a + d - a = d from by ring, show b + e - b = e from by ring]
  · intro i hi
    show ((a - d/2 + (i : ℚ) * d) - (a - d/2)) /
        ((a + ((m : ℚ) - 1) * d + d/2) - (a - d/2)) * (((m : ℤ) * dpc : ℤ) : ℚ)
      = (i : ℚ) * (dpc : ℚ)
    rw [show (a - d/2 + (i : ℚ) * d) - (a - d/2) = (i : ℚ) * d from by ring,
        show (a + ((m : ℚ) - 1) * d + d/2) - (a - d/2) = (m : ℚ) * d from by ring,
        show (((m : ℤ) * dpc : ℤ) : ℚ) = (m : ℚ) * (dpc : ℚ) from by push_cast; ring]
    have hd0 : d ≠ 0 := hd.ne'
    field_simp
    ring
  · intro j hj
    show ((b - e/2 + (j : ℚ) * e) - (b - e/2)) /
        ((b + ((n : ℚ) - 1) * e + e/2) - (b - e/2)) * (((n : ℤ) * dpc : ℤ) : ℚ)
      = (j : ℚ) * (dpc : ℚ)
    rw [show (b - e/2 + (j : ℚ) * e) - (b - e/2) = (j : ℚ) * e from by ring,
        show (b + ((n : ℚ) - 1) * e + e/2) - (b - e/2) = (n : ℚ) * e from by ring,
        show (((n : ℤ) * dpc : ℤ) : ℚ) = (n : ℚ) * (dpc : ℚ) from by push_cast; ring]
    have he0 : e ≠ 0 := he.ne'
    field_simp
    ring

/-- Witness for C3 at the spec's example grid x = [0.5, 1.5, 2.5, 3.5],
y = [0.5, 1.5], dpc = 10: the boundary between cells 1 and 2 (data coordinate
2) lands on pixel coordinate 20. -/
theorem cell_pixel_alignment_witness :
    ∃ g, compute_export_geometry (centers ((1:ℚ)/2) 1 4) (centers ((1:ℚ)/2) 1 2) 10 1 = .ok g ∧
      px_coord g 2 = 20 := by
  obtain ⟨g, hg, -, -, hx, -⟩ := cell_pixel_alignment ((1:ℚ)/2) ((1:ℚ)/2) 1 1 1 4 2 10
    (by decide) (by decide) (by decide) (by decide) (by decide)
  have h := hx 2 (by decide)
  push_cast at h
  norm_num at h
  exact ⟨g, hg, h⟩

/-- C8: the grid data model's shape invariant: `pcolorcells` accepts the
coordinate/value arrays exactly when either centers are supplied (coordinate
arrays with the same shape as the value array, which are then converted to
edges) or edges are supplied (one more entry per axis, used directly). -/
theorem pcolorcells_shape_invariant (x y : List ℚ) (zr zc : ℕ) :
    ((pcolorcells x y zr zc).isSome ↔
      ((x.length = zc ∧ y.length = zr) ∨ (x.length = zc + 1 ∧ y.length = zr + 1))) ∧
    (x.length = zc → y.length = zr →
      pcolorcells x y zr zc = some (xedge_of x, yedge_of y)) ∧
    (x.length = zc + 1 → y.length = zr + 1 →
      pcolorcells x y zr zc = some (x, y)) := by
  unfold pcolorcells
  refine ⟨?_, ?_, ?_⟩
  · split_ifs with h1 h2 <;> simp_all
  · intro h1 h2
    rw [if_pos ⟨h1, h2⟩]
  · intro h1 h2
    rw [if_neg (by omega), if_pos ⟨h1, h2⟩]

/-- Witness for C8: a 2-point x grid and 3-point y grid with a 3 × 2 value
array are accepted as centers and converted to edge arrays. -/
theorem pcolorcells_shape_invariant_witness :
    pcolorcells [(0:ℚ), 1] [(0:ℚ), 1, 2] 3 2 =
      some (xedge_of [(0:ℚ), 1], yedge_of [(0:ℚ), 1, 2]) :=
  (pcolorcells_shape_invariant [(0:ℚ), 1] [(0:ℚ), 1, 2] 3 2).2.1 (by decide) (by decide)

/-- C9: the returned dpi satisfies `dpi = pixel_width / figure_width_in` for
the chosen physical figure width, and `pixel_width / dpi` and
`pixel_height / dpi` recover the physical figure dimensions exactly (the
height being the width scaled by the pixel aspect ratio). -/
theorem dpi_matches_figure_size (x y : List ℚ) (dpc : ℤ) (fw : ℚ)
    (hx : 2 ≤ x.length) (hy : 2 ≤ y.length) (hd : 0 < dpc) (hfw : 0 < fw) :
    ∃ g, compute_export_geometry x y dpc fw = .ok g ∧
      g.dpi = (g.pixel_width : ℚ) / fw ∧
      (g.pixel_width : ℚ) / g.dpi = fw ∧
      (g.pixel_height : ℚ) / g.dpi = fw * ((g.pixel_height : ℚ) / (g.pixel_width : ℚ)) := by
  have hpw : ((((x.length : ℤ) * dpc : ℤ)) : ℚ) ≠ 0 := by
    have h1 : (0 : ℤ) < (x.length : ℤ) * dpc :=
      mul_pos (by exact_mod_cast (by omega : 0 < x.length)) hd
    exact_mod_cast h1.ne'
  have hfw0 : fw ≠ 0 := hfw.ne'
  refine ⟨_, compute_export_geometry_ok x y dpc fw hx hy hd, rfl, ?_, ?_⟩
  · show ((((x.length : ℤ) * dpc : ℤ)) : ℚ) / (((((x.length : ℤ) * dpc : ℤ)) : ℚ) / fw) = fw
    field_simp
  · show ((((y.length : ℤ) * dpc : ℤ)) : ℚ) / (((((x.length : ℤ) * dpc : ℤ)) : ℚ) / fw)
      = fw * (((((y.length : ℤ) * dpc : ℤ)) : ℚ) / ((((x.length : ℤ) * dpc : ℤ)) : ℚ))
    field_simp
    ring

/-- Witness for C9 with a 2 × 2 grid, dpc = 1, figure width 2 inches:
dpi = 1 and the figure dimensions are recovered exactly. -/
theorem dpi_matches_figure_size_witness :
    ∃ g, compute_export_geometry [(0:ℚ), 1] [(0:ℚ), 1] 1 2 = .ok g ∧
      g.dpi = (g.pixel_width : ℚ) / 2 ∧
      (g.pixel_width : ℚ) / g.dpi = 2 ∧
      (g.pixel_height : ℚ) / g.dpi = 2 * ((g.pixel_height : ℚ) / (g.pixel_width : ℚ)) :=
  dpi_matches_figure_size [(0:ℚ), 1] [(0:ℚ), 1] 1 2 (by decide) (by decide)
    (by decide) (by decide)

/-- C10: for uniformly spaced strictly increasing center sequences, the
notebook's two independent extent computations agree: the derived edge arrays
(cell-7's `np.arange` formula) have exactly one more element than the center
arrays, and their first and last elements equal the KML extent of cell-24
computed directly from the centers and the spacings. -/
theorem edge_extent_agreement (a b d e : ℚ) (m n : ℕ)
    (hd : 0 < d) (he : 0 < e) (hm : 2 ≤ m) (hn : 2 ≤ n) :
    (xedge_of (centers a d m)).length = (centers a d m).length + 1 ∧
    (yedge_of (centers b e n)).length = (centers b e n).length + 1 ∧
    extent2_of (centers a d m) (centers b e n) d e =
      [(xedge_of (centers a d m)).getD 0 0,
       (xedge_of (centers a d m)).getLastD 0,
       (yedge_of (centers b e n)).getD 0 0,
       (yedge_of (centers b e n)).getLastD 0] := by
  rw [yedge_of_eq_xedge_of, xedge_of_centers a d m hd hm, xedge_of_centers b e n he hn]
  have e1 : (centers a d m).getD 0 0 = a := centers_getD_zero _ _ _ (by omega)
  have e2 : (centers a d m).getLastD 0 = a + ((m : ℚ) - 1) * d :=
    centers_getLastD_of_pos _ _ _ _ (by omega)
  have e3 : (centers b e n).getD 0 0 = b := centers_getD_zero _ _ _ (by omega)
  have e4 : (centers b e n).getLastD 0 = b + ((n : ℚ) - 1) * e :=
    centers_getLastD_of_pos _ _ _ _ (by omega)
  have f1 : (centers (a - (1/2) * d) d (m + 1)).getD 0 0 = a - (1/2) * d :=
    centers_getD_zero _ _ _ (by omega)
  have f2 : (centers (a - (1/2) * d) d (m + 1)).getLastD 0 = (a - (1/2) * d) + (m : ℚ) * d :=
    centers_getLastD _ _ _ _
  have g1 : (centers (b - (1/2) * e) e (n + 1)).getD 0 0 = b - (1/2) * e :=
    centers_getD_zero _ _ _ (by omega)
  have g2 : (centers (b - (1/2) * e) e (n + 1)).getLastD 0 = (b - (1/2) * e) + (n : ℚ) * e :=
    centers_getLastD _ _ _ _
  refine ⟨?_, ?_, ?_⟩
  · rw [centers_length, centers_length]
  · rw [centers_length, centers_length]
  · unfold extent2_of
    rw [e1, e2, e3, e4, f1, f2, g1, g2]
    simp only [List.cons.injEq, and_true]
    exact ⟨by ring, by ring, by ring, by ring⟩

/-- Witness for C10 at the spec's example x = [0.5, 1.5, 2.5, 3.5] (spacing 1)
with y = [0.5, 1.5]: the edge arrays gain one element and bracket the extent
[0, 4, 0, 2]. -/
theorem edge_extent_agreement_witness :
    (xedge_of (centers ((1:ℚ)/2) 1 4)).length = (centers ((1:ℚ)/2) 1 4).length + 1 ∧
    (yedge_of (centers ((1:ℚ)/2) 1 2)).length = (centers ((1:ℚ)/2) 1 2).length + 1 ∧
    extent2_of (centers ((1:ℚ)/2) 1 4) (centers ((1:ℚ)/2) 1 2) 1 1 =
      [(xedge_of (centers ((1:ℚ)/2) 1 4)).getD 0 0,
       (xedge_of (centers ((1:ℚ)/2) 1 4)).getLastD 0,
       (yedge_of (centers ((1:ℚ)/2) 1 2)).getD 0 0,
       (yedge_of (centers ((1:ℚ)/2) 1 2)).getLastD 0] :=
  edge_extent_agreement ((1:ℚ)/2) ((1:ℚ)/2) 1 1 4 2 (by decide) (by decide)
    (by decide) (by decide)
